import Mathlib

/-!
Shallow embedding of the SSD1306 display driver (gaugette/ssd1306.py) and
verification of the frozen claims about it.

Modelling conventions:
* The Python code is Python 2, so the division operator on ints is floor
  division; for the nonnegative values reached after the bounds guards this
  is Nat division.
* Machine bytes are modelled as Nat with explicit masking, exactly as the
  source keeps plain ints masked with 0xFF.
* Python list indexing raises IndexError when the (possibly negative) index
  is out of range, and a negative index in range counts from the end of the
  list.  Buffer mutations are therefore modelled in the Except monad, where
  the error value carries the state at the moment the exception is raised.
* Methods that only emit bus traffic (begin, display_cols, the I2C data
  chunker) are modelled as pure functions returning the emitted byte lists.
-/

namespace AdaPi

set_option maxRecDepth 100000

/-- State of an SSD1306Virtual object: the fields set by the constructor of
SSD1306Virtual in ssd1306.py. -/
structure St where
  cols : Nat
  rows : Nat
  buffer_rows : Nat
  buffer_cols : Nat
  col_offset : Nat
  bytes_per_col : Nat
  buffer : List Nat
deriving DecidableEq, Repr

/-- Python list index resolution: an index in the interval from -len to
len - 1 resolves (negative indices count from the end), anything else
raises IndexError (modelled as none). -/
def pyIdx (n : Nat) (i : Int) : Option Nat :=
  if 0 ≤ i then (if i < (n : Int) then some i.toNat else none)
  else (if 0 ≤ (n : Int) + i then some ((n : Int) + i).toNat else none)

/-- Read-modify-write of one buffer cell, as Python buffer[offset] op=.
The error value is the unchanged state, as at an IndexError. -/
def pyModifyByte (s : St) (i : Int) (f : Nat → Nat) : Except St St :=
  match pyIdx s.buffer.length i with
  | some j => .ok { s with buffer := s.buffer.set j (f (s.buffer.getD j 0)) }
  | none => .error s

/-- The state held by a computation in the Except monad, whether it finished
normally or raised. -/
def exceptState : Except St St → St
  | .ok s => s
  | .error s => s

instance {e a : Type} [DecidableEq e] [DecidableEq a] : DecidableEq (Except e a) :=
  fun x y =>
  match x, y with
  | .ok u, .ok v =>
    if h : u = v then isTrue (by rw [h]) else isFalse (by intro hc; cases hc; exact h rfl)
  | .error u, .error v =>
    if h : u = v then isTrue (by rw [h]) else isFalse (by intro hc; cases hc; exact h rfl)
  | .ok _, .error _ => isFalse (by intro hc; cases hc)
  | .error _, .ok _ => isFalse (by intro hc; cases hc)

/-- Python slice bound resolution for l[a:b]. -/
def pyBound (n : Nat) (i : Int) : Nat :=
  if i < 0 then ((n : Int) + i).toNat else min i.toNat n

/-- Python slice l[a:b]. -/
def pySlice (l : List Nat) (a b : Int) : List Nat :=
  (l.take (pyBound l.length b)).drop (pyBound l.length a)

/-- Python range(a, b) over ints. -/
def pyRangeI (a b : Int) : List Int :=
  (List.range (b - a).toNat).map (fun k => a + (k : Int))

/-- SSD1306Virtual.__init__: cols and rows are hardcoded to 128 and 32; the
buffer is column-major with buffer_rows/8 bytes per column, all zero. -/
def mkSSD1306V (buffer_rows buffer_cols : Nat) : St :=
  { cols := 128
    rows := 32
    buffer_rows := buffer_rows
    buffer_cols := buffer_cols
    col_offset := 0
    bytes_per_col := buffer_rows / 8
    buffer := List.replicate (buffer_cols * (buffer_rows / 8)) 0 }

/-- SSD1306Virtual.clear_display: every buffer byte is set to 0. -/
def clear_display (s : St) : St :=
  { s with buffer := s.buffer.map (fun _ => 0) }

/-- SSD1306Virtual.draw_fast_helper: switch the bits of bit_mask on or off
in the byte at offset. -/
def draw_fast_helper (s : St) (offset : Nat) (bit_mask : Nat) (color : Nat) :
    Except St St :=
  if color ≠ 0 then pyModifyByte s offset (fun b => b ||| bit_mask)
  else pyModifyByte s offset (fun b => b &&& (0xFF - bit_mask))

/-- Body of SSD1306Virtual.draw_pixel after the bounds guard, where the
coordinates are known nonnegative. -/
def draw_pixel_core (s : St) (xn yn color : Nat) : Except St St :=
  let mem_col := xn
  let mem_row := yn / 8
  let bit_mask := 1 <<< (yn % 8)
  let offset := mem_row + (s.buffer_rows / 8) * mem_col
  draw_fast_helper s offset bit_mask color

/-- SSD1306Virtual.draw_pixel: out-of-buffer coordinates return with no
change, otherwise one bit is switched. -/
def draw_pixel (s : St) (x y : Int) (color : Nat) : Except St St :=
  if x < 0 ∨ x ≥ (s.buffer_cols : Int) ∨ y < 0 ∨ y ≥ (s.buffer_rows : Int) then .ok s
  else draw_pixel_core s x.toNat y.toNat color

/-- SSD1306Virtual.get_pixel: out-of-buffer coordinates give the bare
return (None); in range, the selected bit as 0 or 1. -/
def get_pixel (s : St) (x y : Int) : Except Unit (Option Nat) :=
  if x < 0 ∨ x ≥ (s.buffer_cols : Int) ∨ y < 0 ∨ y ≥ (s.buffer_rows : Int) then .ok none
  else
    let yn := y.toNat
    let xn := x.toNat
    let offset := yn / 8 + (s.buffer_rows / 8) * xn
    match pyIdx s.buffer.length (offset : Int) with
    | some j => .ok (some ((s.buffer.getD j 0 >>> (yn % 8)) &&& 1))
    | none => .error ()

/-- The middle loop of draw_fast_vline: whole pages from p (inclusive) to
e (exclusive) in the column starting at byte xb get assigned 0xFF or 0. -/
def vlineMiddle (s : St) (xb p e : Nat) (color : Nat) : Except St St :=
  if _h : p < e then
    (pyModifyByte s ((p + xb : Nat) : Int)
        (fun _ => if color ≠ 0 then 0xFF else 0x00)).bind
      (fun s1 => vlineMiddle s1 xb (p + 1) e color)
  else .ok s
  termination_by e - p

/-- Body of SSD1306Virtual.draw_fast_vline after the bounds guard. -/
def draw_fast_vline_core (s : St) (xn yn hn color : Nat) : Except St St :=
  let mem_row_start := yn / 8
  let mem_row_end := (yn + hn) / 8
  let xb := xn * (s.buffer_rows / 8)
  let offset := mem_row_start + xb
  let bit_mask := (0xFF <<< (yn % 8)) &&& 0xFF
  let mini_line : Int := 8 - ((yn % 8 : Nat) : Int) - (hn : Int)
  if 0 < mini_line then
    draw_fast_helper s offset
      (((bit_mask <<< mini_line.toNat) &&& 0xFF) >>> mini_line.toNat) color
  else
    (if yn % 8 ≠ 0 then draw_fast_helper s offset bit_mask color else .ok s).bind
      (fun s1 =>
        (if (yn + hn) % 8 ≠ 0 then
            draw_fast_helper s1 (mem_row_end + xb)
              (0xFF >>> (8 - (yn + hn) % 8)) color
          else .ok s1).bind
          (fun s2 =>
            vlineMiddle s2 xb
              (if yn % 8 ≠ 0 then mem_row_start + 1 else mem_row_start)
              mem_row_end color))

/-- SSD1306Virtual.draw_fast_vline: guard then core. -/
def draw_fast_vline (s : St) (x y h : Int) (color : Nat) : Except St St :=
  if x < 0 ∨ x ≥ (s.buffer_cols : Int) ∨ y < 0 ∨ y + h > (s.buffer_rows : Int) ∨ h ≤ 0 then
    .ok s
  else draw_fast_vline_core s x.toNat y.toNat h.toNat color

/-- The loop of draw_fast_hline: n single-bit writes, the offset advancing
by step each time, mirroring range(start, stop, step). -/
def hlineLoop (s : St) (offset step bit_mask color : Nat) : Nat → Except St St
  | 0 => .ok s
  | n + 1 =>
    (draw_fast_helper s offset bit_mask color).bind
      (fun s1 => hlineLoop s1 (offset + step) step bit_mask color n)

/-- The number of elements of Python range(start, stop, step) for a
positive step. -/
def pyRangeCount (start stop step : Int) : Nat :=
  ((stop - start + step - 1) / step).toNat

/-- Body of SSD1306Virtual.draw_fast_hline after the bounds guard.  A zero
range step (buffer_rows under 8) raises ValueError before any buffer
access, modelled as an error carrying the unchanged state. -/
def draw_fast_hline_core (s : St) (xn yn : Nat) (w : Int) (color : Nat) :
    Except St St :=
  let mem_row := yn / 8
  let step := s.buffer_rows / 8
  if step = 0 then .error s
  else
    let start := mem_row + step * xn
    let stop : Int := (mem_row : Int) + (step : Int) * ((xn : Int) + w)
    hlineLoop s start step (1 <<< (yn % 8)) color (pyRangeCount (start : Int) stop (step : Int))

/-- SSD1306Virtual.draw_fast_hline: guard then core. -/
def draw_fast_hline (s : St) (x y w : Int) (color : Nat) : Except St St :=
  if x < 0 ∨ x + w > (s.buffer_cols : Int) ∨ y < 0 ∨ y ≥ (s.buffer_rows : Int) then .ok s
  else draw_fast_hline_core s x.toNat y.toNat w color

/-- One XOR-with-0xFF write of SSD1306Virtual.invert_rect_fast. -/
def xorByteAt (s : St) (offset : Int) : Except St St :=
  pyModifyByte s offset (fun b => b ^^^ 0xFF)

/-- SSD1306Virtual.invert_rect_fast, exactly as written: for i in
range(x, x+w), for j in range(y/8, (y+h)/8), XOR the byte at offset
i*bytes_per_col + y (the inner loop variable j is unused in the body). -/
def invert_rect_fast (s : St) (x y w h : Int) : Except St St :=
  (pyRangeI x (x + w)).foldlM
    (fun s1 i =>
      (pyRangeI (y / 8) ((y + h) / 8)).foldlM
        (fun s2 _ => xorByteAt s2 (i * (s2.bytes_per_col : Int) + y)) s1)
    s

/-! Opcode constants of SSD1306Physical. -/

def EXTERNAL_VCC : Nat := 0x1
def SWITCH_CAP_VCC : Nat := 0x2
def SET_MEMORY_MODE : Nat := 0x20
def SET_COL_ADDRESS : Nat := 0x21
def SET_START_LINE : Nat := 0x40
def SET_CONTRAST : Nat := 0x81
def CHARGE_PUMP : Nat := 0x8D
def SEG_REMAP : Nat := 0xA0
def DISPLAY_ALL_ON_RESUME : Nat := 0xA4
def NORMAL_DISPLAY : Nat := 0xA6
def DISPLAY_OFF : Nat := 0xAE
def DISPLAY_ON : Nat := 0xAF
def COM_SCAN_DEC : Nat := 0xC8
def SET_DISPLAY_OFFSET : Nat := 0xD3
def SET_DISPLAY_CLOCK_DIV : Nat := 0xD5
def SET_PRECHARGE : Nat := 0xD9
def SET_COM_PINS : Nat := 0xDA
def SET_VCOM_DETECT : Nat := 0xDB
def SET_MULTIPLEX : Nat := 0xA8
def MEMORY_MODE_VERT : Nat := 0x01

/-- SSD1306Physical.begin: the list of send_command calls it makes, each
inner list being the bytes of one command call, in program order.  The
reset() call touches only the GPIO reset line and sends no command. -/
def begin_cmds (vcc_state : Nat) : List (List Nat) :=
  [[DISPLAY_OFF],
   [SET_DISPLAY_CLOCK_DIV, 0x80],
   [SET_MULTIPLEX, 0x1F],
   [SET_DISPLAY_OFFSET, 0x00],
   [SET_START_LINE ||| 0x00]] ++
  (if vcc_state = EXTERNAL_VCC then [[CHARGE_PUMP, 0x10]] else [[CHARGE_PUMP, 0x14]]) ++
  [[SET_MEMORY_MODE, 0x00],
   [SEG_REMAP ||| 0x01],
   [COM_SCAN_DEC],
   [SET_COM_PINS, 0x02],
   [SET_CONTRAST, 0x8F]] ++
  (if vcc_state = EXTERNAL_VCC then [[SET_PRECHARGE, 0x22]] else [[SET_PRECHARGE, 0xF1]]) ++
  [[SET_VCOM_DETECT, 0x40],
   [DISPLAY_ALL_ON_RESUME],
   [NORMAL_DISPLAY],
   [DISPLAY_ON]]

/-- A bus event: one command call or one data call. -/
inductive Ev where
  | cmd : List Int → Ev
  | data : List Nat → Ev
deriving DecidableEq, Repr

/-- SSD1306Physical.display_cols: the bus traffic it emits, in order:
vertical addressing mode, the column address window, then the buffer
slice buffer[start : start + count*bytes_per_col]. -/
def display_cols_events (s : St) (start_col count : Int) : List Ev :=
  [Ev.cmd [(SET_MEMORY_MODE : Int), (MEMORY_MODE_VERT : Int)],
   Ev.cmd [(SET_COL_ADDRESS : Int), start_col,
           (start_col + count - 1) % (s.cols : Int)],
   Ev.data (pySlice s.buffer
      (((s.col_offset : Int) + start_col) * (s.bytes_per_col : Int))
      ((((s.col_offset : Int) + start_col) * (s.bytes_per_col : Int)) +
        count * (s.bytes_per_col : Int)))]

/-- SSD1306_I2C.I2C_BLOCKSIZE. -/
def I2C_BLOCKSIZE : Nat := 32

/-- The full chunks produced by zip(*[iter(bytes)]*k): consecutive groups
of exactly k bytes while k bytes remain, the remainder discarded. -/
def fullChunks (k : Nat) (bs : List Nat) : List (List Nat) :=
  if _h : 0 < k ∧ k ≤ bs.length then bs.take k :: fullChunks k (bs.drop k) else []
  termination_by bs.length
  decreasing_by simp only [List.length_drop]; omega

/-- SSD1306_I2C.data: the payloads of the writeList calls it makes, in
order: every full 32-byte chunk, then bytes[len - len % 32 :]. -/
def i2c_data_writes (bs : List Nat) : List (List Nat) :=
  fullChunks I2C_BLOCKSIZE bs ++ [bs.drop (bs.length - bs.length % I2C_BLOCKSIZE)]

/-! Specification-side auxiliary definitions used to state and prove the
claims; these are the reference forms the code is compared against. -/

/-- h sequential draw_pixel calls at (x, y), (x, y+1), ..., threading state
and stopping at the first raised error. -/
def seqPixels (s : St) (x y : Int) : Nat → Except St St
  | 0 => .ok s
  | n + 1 => (draw_pixel s x y 1).bind (fun s1 => seqPixels s1 x (y + 1) n)

/-- OR a mask into the byte at index o of a buffer (no-op out of range,
which never arises where this is used). -/
def orAt (l : List Nat) (o m : Nat) : List Nat :=
  l.set o (l.getD o 0 ||| m)

/-- The cumulative effect on the buffer of OR-ing single pixel bits of
column x at rows y, y+1, ..., y+n-1. -/
def orRunB (bpc x : Nat) (l : List Nat) (y : Nat) : Nat → List Nat
  | 0 => l
  | n + 1 => orRunB bpc x (orAt l (y / 8 + bpc * x) (1 <<< (y % 8))) (y + 1) n

/-- OR 0xFF into the column-x bytes of every page from p (inclusive) to
e (exclusive); xb is the byte index of the top of column x. -/
def mfoldOr (xb : Nat) (l : List Nat) (p e : Nat) : List Nat :=
  if _h : p < e then mfoldOr xb (orAt l (p + xb) 0xFF) (p + 1) e else l
  termination_by e - p

/-- The buffer draw_fast_vline produces for color on, written as a
composition of per-page OR masks: the partial start page, the partial end
page, then the whole middle pages, mirroring the branch structure of the
source. -/
def vlineSpecBuf (bpc x y h : Nat) (l : List Nat) : List Nat :=
  let q := y / 8
  let e := (y + h) / 8
  let r := y % 8
  let rem := (y + h) % 8
  let xb := bpc * x
  if r + h < 8 then orAt l (q + xb) ((2 ^ h - 1) <<< r)
  else
    let l1 := if r ≠ 0 then orAt l (q + xb) ((2 ^ (8 - r) - 1) <<< r) else l
    let l2 := if rem ≠ 0 then orAt l1 (e + xb) (2 ^ rem - 1) else l1
    mfoldOr xb l2 (if r ≠ 0 then q + 1 else q) e

/-- Fold of XOR-with-0xFF writes over a list of raw offsets. -/
def foldXor : List Int → St → Except St St
  | [], s => .ok s
  | o :: L, s => (xorByteAt s o).bind (fun s1 => foldXor L s1)

/-- The flat list of offsets invert_rect_fast visits, given the constant
bytes_per_col value B of the state it runs in. -/
def invOffsets (B : Nat) (x y w h : Int) : List Int :=
  (pyRangeI x (x + w)).flatMap
    (fun i => (pyRangeI (y / 8) ((y + h) / 8)).map
      (fun _ => i * (B : Int) + y))

/-- The buffer well-formedness invariant of claim C10: the length fixed by
the constructor, and every cell a byte. -/
def BufInv (s : St) : Prop :=
  s.buffer.length = s.buffer_cols * (s.buffer_rows / 8) ∧ ∀ b ∈ s.buffer, b ≤ 255

/-! Basic toolkit lemmas. -/

theorem pyIdx_coe (n o : Nat) : pyIdx n (o : Int) = if o < n then some o else none := by
  unfold pyIdx
  rw [if_pos (by positivity)]
  by_cases h : o < n
  · rw [if_pos (by exact_mod_cast h), if_pos h, Int.toNat_natCast]
  · rw [if_neg (by exact_mod_cast h), if_neg h]

theorem pyIdx_some_lt {n : Nat} {i : Int} {j : Nat} (h : pyIdx n i = some j) : j < n := by
  unfold pyIdx at h
  by_cases h0 : 0 ≤ i
  · rw [if_pos h0] at h
    by_cases h1 : i < (n : Int)
    · rw [if_pos h1] at h
      cases h
      omega
    · rw [if_neg h1] at h
      cases h
  · rw [if_neg h0] at h
    by_cases h1 : 0 ≤ (n : Int) + i
    · rw [if_pos h1] at h
      cases h
      omega
    · rw [if_neg h1] at h
      cases h

theorem getD_set_self (l : List Nat) (j v : Nat) (h : j < l.length) :
    (l.set j v).getD j 0 = v := by
  simp [List.getD_eq_getElem?_getD, List.getElem?_set_self h]

theorem getD_set_ne (l : List Nat) (i j v : Nat) (h : i ≠ j) :
    (l.set i v).getD j 0 = l.getD j 0 := by
  simp [List.getD_eq_getElem?_getD, List.getElem?_set_ne h]

theorem set_getD_self (l : List Nat) (j : Nat) (h : j < l.length) :
    l.set j (l.getD j 0) = l := by
  apply List.ext_getElem?
  intro i
  by_cases hij : j = i
  · subst hij
    rw [List.getElem?_set_self h]
    simp [List.getD_eq_getElem?_getD, List.getElem?_eq_getElem h]
  · rw [List.getElem?_set_ne hij]

theorem getD_mem_le {l : List Nat} {j : Nat} (hb : ∀ b ∈ l, b ≤ 255)
    (h : j < l.length) : l.getD j 0 ≤ 255 := by
  have : l.getD j 0 = l[j] := by
    simp [List.getD_eq_getElem?_getD, List.getElem?_eq_getElem h]
  rw [this]
  exact hb _ (List.getElem_mem h)

/-! Claim theorems, in claim order where convenient. -/

/-- Claim C5: begin(vcc_source) sends exactly the initialization command
sequence of the spec, in order, with the charge-pump and pre-charge
arguments depending on the VCC source, and nothing else. -/
theorem c5_begin_sequence :
    begin_cmds EXTERNAL_VCC =
      [[0xAE], [0xD5, 0x80], [0xA8, 0x1F], [0xD3, 0x00], [0x40], [0x8D, 0x10],
       [0x20, 0x00], [0xA1], [0xC8], [0xDA, 0x02], [0x81, 0x8F], [0xD9, 0x22],
       [0xDB, 0x40], [0xA4], [0xA6], [0xAF]] ∧
    begin_cmds SWITCH_CAP_VCC =
      [[0xAE], [0xD5, 0x80], [0xA8, 0x1F], [0xD3, 0x00], [0x40], [0x8D, 0x14],
       [0x20, 0x00], [0xA1], [0xC8], [0xDA, 0x02], [0x81, 0x8F], [0xD9, 0xF1],
       [0xDB, 0x40], [0xA4], [0xA6], [0xAF]] := by
  constructor <;> rfl

/-- Counterexample to claim C4 as stated: (0, 40) lies outside the logical
display window (rows = 32) of the default 64-row virtual buffer, yet
draw_pixel(0, 40, 1) changes byte 5 of the buffer from 0 to 1, and
get_pixel(0, 40) returns the value 0, not None. -/
theorem c4_counterexample :
    (mkSSD1306V 64 128).rows = 32 ∧
    draw_pixel (mkSSD1306V 64 128) 0 40 1 =
      .ok { mkSSD1306V 64 128 with buffer := (mkSSD1306V 64 128).buffer.set 5 1 } ∧
    ((mkSSD1306V 64 128).buffer.set 5 1).getD 5 0 = 1 ∧
    (mkSSD1306V 64 128).buffer.getD 5 0 = 0 ∧
    get_pixel (mkSSD1306V 64 128) 0 40 = .ok (some 0) := by
  refine ⟨rfl, by decide, by decide, by decide, by decide⟩

/-- Claim C4 amended: for every coordinate outside the BUFFER bounds
(buffer_cols by buffer_rows, not the visible window), draw_pixel leaves
the state untouched and raises nothing, and get_pixel returns None. -/
theorem c4_amended_clipping (s : St) (x y : Int) (color : Nat)
    (h : x < 0 ∨ (s.buffer_cols : Int) ≤ x ∨ y < 0 ∨ (s.buffer_rows : Int) ≤ y) :
    draw_pixel s x y color = .ok s ∧ get_pixel s x y = .ok none := by
  constructor
  · unfold draw_pixel
    rw [if_pos (by omega)]
  · unfold get_pixel
    rw [if_pos (by omega)]

theorem c4_amended_clipping_witness :
    draw_pixel (mkSSD1306V 64 128) (-1) 0 1 = .ok (mkSSD1306V 64 128) ∧
    get_pixel (mkSSD1306V 64 128) (-1) 0 = .ok none :=
  c4_amended_clipping (mkSSD1306V 64 128) (-1) 0 1 (by decide)

/-- Claim C2 is a code bug: invert_rect_fast(0, 0, 1, 16) on the default
all-zero 64x128 buffer covers pages 0 and 1 of column 0, but the code XORes
the byte at offset i*bytes_per_col + y (the inner loop variable is unused)
twice, so the buffer comes back unchanged with byte 0 still 0, not 0xFF. -/
theorem c2_invert_unused_loop_var :
    invert_rect_fast (mkSSD1306V 64 128) 0 0 1 16 = .ok (mkSSD1306V 64 128) ∧
    (mkSSD1306V 64 128).buffer.getD 0 0 = 0 := by
  refine ⟨by decide, by decide⟩

/-- Counterexample to claim C3 as stated: refresh(buf, 120, 16) on the
128-column default buffer issues the right commands but streams only the
64 bytes left between column 120 and the end of the buffer, not
count * bytes_per_column = 128 bytes. -/
theorem c3_counterexample :
    display_cols_events (mkSSD1306V 64 128) 120 16 =
      [Ev.cmd [0x20, 0x01], Ev.cmd [0x21, 120, 7],
       Ev.data (List.replicate 64 0)] ∧
    (List.replicate 64 (0 : Nat)).length ≠ 16 * (mkSSD1306V 64 128).bytes_per_col := by
  refine ⟨by decide, by decide⟩

theorem length_pySlice (l : List Nat) (a b : Int) (ha : 0 ≤ a) (hab : a ≤ b)
    (hb : b ≤ (l.length : Int)) : (pySlice l a b).length = (b - a).toNat := by
  unfold pySlice pyBound
  rw [if_neg (by omega), if_neg (by omega)]
  simp only [List.length_drop, List.length_take]
  omega

/-- Claim C3 amended: refresh switches to vertical addressing, sets the
column window with wraparound, and streams the slice
buffer[start : start + count*bytes_per_col]; that slice has exactly
count * bytes_per_column bytes whenever it lies inside the buffer, and is
truncated at the buffer end otherwise. -/
theorem c3_amended_refresh (s : St) (start_col count : Int)
    (hs : 0 ≤ start_col) (hc : 0 ≤ count) :
    display_cols_events s start_col count =
      [Ev.cmd [(SET_MEMORY_MODE : Int), (MEMORY_MODE_VERT : Int)],
       Ev.cmd [(SET_COL_ADDRESS : Int), start_col,
               (start_col + count - 1) % (s.cols : Int)],
       Ev.data (pySlice s.buffer
         (((s.col_offset : Int) + start_col) * (s.bytes_per_col : Int))
         ((((s.col_offset : Int) + start_col) * (s.bytes_per_col : Int)) +
           count * (s.bytes_per_col : Int)))] ∧
    ((((s.col_offset : Int) + start_col) * (s.bytes_per_col : Int)) +
        count * (s.bytes_per_col : Int) ≤ (s.buffer.length : Int) →
      (pySlice s.buffer
         (((s.col_offset : Int) + start_col) * (s.bytes_per_col : Int))
         ((((s.col_offset : Int) + start_col) * (s.bytes_per_col : Int)) +
           count * (s.bytes_per_col : Int))).length =
        (count * (s.bytes_per_col : Int)).toNat) := by
  constructor
  · rfl
  · intro hfit
    have ha : (0 : Int) ≤ ((s.col_offset : Int) + start_col) * (s.bytes_per_col : Int) :=
      mul_nonneg (by positivity) (by positivity)
    have hcb : (0 : Int) ≤ count * (s.bytes_per_col : Int) :=
      mul_nonneg hc (by positivity)
    rw [length_pySlice _ _ _ ha (by omega) hfit]
    omega

theorem c3_amended_refresh_witness :
    (display_cols_events (mkSSD1306V 64 128) 0 4).length = 3 := by
  rw [(c3_amended_refresh (mkSSD1306V 64 128) 0 4 (by decide) (by decide)).1]
  rfl

/-- Claim C9: draw_fast_hline with in-bounds x, y and nonpositive w leaves
the buffer unchanged and touches no cell; when bytes_per_col is nonzero
(buffer_rows at least 8) it returns normally with the state unchanged. -/
theorem pyRangeCount_eq_zero (a b c : Int) (h : b ≤ a) (hc : 0 < c) :
    pyRangeCount a b c = 0 := by
  unfold pyRangeCount
  rcases le_or_lt 0 (b - a + c - 1) with hnn | hneg
  · rw [Int.ediv_eq_zero_of_lt hnn (by omega)]
    rfl
  · have hle : (b - a + c - 1) / c ≤ 0 := by
      calc (b - a + c - 1) / c ≤ 0 / c := Int.ediv_le_ediv hc (le_of_lt hneg)
      _ = 0 := Int.zero_ediv c
    omega

theorem c9_hline_nonpositive_width (s : St) (x y w : Int) (color : Nat)
    (hx0 : 0 ≤ x) (hx1 : x < (s.buffer_cols : Int))
    (hy0 : 0 ≤ y) (hy1 : y < (s.buffer_rows : Int)) (hw : w ≤ 0) :
    exceptState (draw_fast_hline s x y w color) = s ∧
    (s.buffer_rows / 8 ≠ 0 → draw_fast_hline s x y w color = .ok s) := by
  have hguard : ¬(x < 0 ∨ x + w > (s.buffer_cols : Int) ∨ y < 0 ∨
      y ≥ (s.buffer_rows : Int)) := by omega
  unfold draw_fast_hline
  rw [if_neg hguard]
  simp only [draw_fast_hline_core]
  by_cases hstep : s.buffer_rows / 8 = 0
  · rw [if_pos hstep]
    exact ⟨rfl, fun hh => absurd hstep hh⟩
  · rw [if_neg hstep]
    rw [pyRangeCount_eq_zero]
    · exact ⟨rfl, fun _ => rfl⟩
    · push_cast
      have hB0 : (0 : Int) ≤ (s.buffer_rows : Int) / 8 :=
        Int.ediv_nonneg (by positivity) (by norm_num)
      nlinarith [mul_nonpos_of_nonneg_of_nonpos hB0 hw]
    · have : 0 < s.buffer_rows / 8 := Nat.pos_of_ne_zero hstep
      exact_mod_cast this

theorem c9_hline_nonpositive_width_witness :
    draw_fast_hline (mkSSD1306V 64 128) 0 0 (-3) 1 = .ok (mkSSD1306V 64 128) :=
  (c9_hline_nonpositive_width (mkSSD1306V 64 128) 0 0 (-3) 1
    (by decide) (by decide) (by decide) (by decide) (by decide)).2 (by decide)


/-! Claim C8: the I2C data chunker. -/

theorem fullChunks_flatten_aux (n : Nat) : ∀ bs : List Nat, bs.length ≤ n →
    (fullChunks 32 bs).flatten ++ bs.drop (bs.length - bs.length % 32) = bs := by
  induction n with
  | zero =>
    intro bs h
    have h0 : bs.length = 0 := by omega
    rw [fullChunks, dif_neg (by omega)]
    simp only [List.flatten_nil, List.nil_append]
    rw [show bs.length - bs.length % 32 = 0 by omega]
    exact List.drop_zero bs
  | succ n ih =>
    intro bs h
    by_cases h32 : 32 ≤ bs.length
    · rw [fullChunks, dif_pos ⟨by norm_num, h32⟩]
      rw [List.flatten_cons, List.append_assoc]
      have hd : (bs.drop 32).length ≤ n := by
        simp only [List.length_drop]
        omega
      have hrec := ih (bs.drop 32) hd
      rw [List.length_drop] at hrec
      rw [List.drop_drop] at hrec
      rw [show 32 + ((bs.length - 32) - (bs.length - 32) % 32) =
            bs.length - bs.length % 32 by omega] at hrec
      rw [hrec]
      exact List.take_append_drop 32 bs
    · rw [fullChunks, dif_neg (by omega)]
      simp only [List.flatten_nil, List.nil_append]
      rw [show bs.length - bs.length % 32 = 0 by omega]
      exact List.drop_zero bs

theorem fullChunks_flatten (bs : List Nat) :
    (fullChunks 32 bs).flatten ++ bs.drop (bs.length - bs.length % 32) = bs :=
  fullChunks_flatten_aux bs.length bs le_rfl

theorem fullChunks_mem_length_aux (n : Nat) : ∀ bs : List Nat, bs.length ≤ n →
    ∀ c ∈ fullChunks 32 bs, c.length = 32 := by
  induction n with
  | zero =>
    intro bs h c hc
    rw [fullChunks, dif_neg (by omega)] at hc
    cases hc
  | succ n ih =>
    intro bs h c hc
    by_cases h32 : 32 ≤ bs.length
    · rw [fullChunks, dif_pos ⟨by norm_num, h32⟩] at hc
      rw [List.mem_cons] at hc
      rcases hc with hc | hc
      · subst hc
        simp only [List.length_take]
        omega
      · exact ih (bs.drop 32) (by simp only [List.length_drop]; omega) c hc
    · rw [fullChunks, dif_neg (by omega)] at hc
      cases hc

theorem fullChunks_mem_length (bs : List Nat) :
    ∀ c ∈ fullChunks 32 bs, c.length = 32 :=
  fullChunks_mem_length_aux bs.length bs le_rfl

/-- Claim C8: the I2C transport splits every data payload into all its full
32-byte chunks in payload order followed by one final remainder chunk of
len mod 32 bytes, every transmitted chunk is at most 32 bytes, and the
concatenation of the transmitted chunks is the original payload. -/
theorem c8_i2c_chunking (bs : List Nat) :
    (i2c_data_writes bs).flatten = bs ∧
    i2c_data_writes bs =
      fullChunks 32 bs ++ [bs.drop (bs.length - bs.length % 32)] ∧
    (∀ c ∈ fullChunks 32 bs, c.length = 32) ∧
    (bs.drop (bs.length - bs.length % 32)).length = bs.length % 32 ∧
    (∀ c ∈ i2c_data_writes bs, c.length ≤ 32) := by
  have hflat := fullChunks_flatten bs
  have hmem := fullChunks_mem_length bs
  have hlast : (bs.drop (bs.length - bs.length % 32)).length = bs.length % 32 := by
    rw [List.length_drop]
    omega
  refine ⟨?_, rfl, hmem, hlast, ?_⟩
  · unfold i2c_data_writes I2C_BLOCKSIZE
    rw [List.flatten_append]
    simpa using hflat
  · intro c hc
    unfold i2c_data_writes I2C_BLOCKSIZE at hc
    rw [List.mem_append] at hc
    rcases hc with hc | hc
    · rw [hmem c hc]
    · rw [List.mem_singleton] at hc
      subst hc
      omega

theorem c8_i2c_chunking_witness :
    (i2c_data_writes (List.replicate 40 7)).flatten = List.replicate 40 7 :=
  (c8_i2c_chunking (List.replicate 40 7)).1

/-! Claim C10: buffer invariant preservation. -/

theorem shiftRight_le_self (a b : Nat) : a >>> b ≤ a := by
  rw [Nat.shiftRight_eq_div_pow]
  exact Nat.div_le_self a (2 ^ b)

theorem byte_or_le {a m : Nat} (ha : a ≤ 255) (hm : m ≤ 255) : a ||| m ≤ 255 := by
  have : a ||| m < 2 ^ 8 := Nat.or_lt_two_pow (by omega) (by omega)
  omega

theorem byte_xor_le {a : Nat} (ha : a ≤ 255) : a ^^^ 255 ≤ 255 := by
  have : a ^^^ 255 < 2 ^ 8 := Nat.xor_lt_two_pow (by omega) (by omega)
  omega

theorem pyModifyByte_inv {f : Nat → Nat} (hf : ∀ b, b ≤ 255 → f b ≤ 255)
    (s : St) (i : Int) (hs : BufInv s) :
    BufInv (exceptState (pyModifyByte s i f)) ∧
    (exceptState (pyModifyByte s i f)).buffer_cols = s.buffer_cols ∧
    (exceptState (pyModifyByte s i f)).buffer_rows = s.buffer_rows := by
  unfold pyModifyByte
  cases hj : pyIdx s.buffer.length i with
  | none => exact ⟨hs, rfl, rfl⟩
  | some j =>
    have hjl : j < s.buffer.length := pyIdx_some_lt hj
    refine ⟨⟨?_, ?_⟩, rfl, rfl⟩
    · simpa [exceptState, List.length_set] using hs.1
    · intro b hb
      simp only [exceptState] at hb
      rcases List.mem_or_eq_of_mem_set hb with hb | hb
      · exact hs.2 b hb
      · subst hb
        exact hf _ (getD_mem_le hs.2 hjl)

theorem draw_fast_helper_inv (s : St) (offset bit_mask color : Nat)
    (hm : bit_mask ≤ 255) (hs : BufInv s) :
    BufInv (exceptState (draw_fast_helper s offset bit_mask color)) ∧
    (exceptState (draw_fast_helper s offset bit_mask color)).buffer_cols = s.buffer_cols ∧
    (exceptState (draw_fast_helper s offset bit_mask color)).buffer_rows = s.buffer_rows := by
  unfold draw_fast_helper
  by_cases hcol : color ≠ 0
  · rw [if_pos hcol]
    exact pyModifyByte_inv (fun b hb => byte_or_le hb hm) s offset hs
  · rw [if_neg hcol]
    exact pyModifyByte_inv (fun b hb => le_trans Nat.and_le_left hb) s offset hs

theorem bind_inv (sc sr : Nat) {m1 : Except St St} {k : St → Except St St}
    (h1 : BufInv (exceptState m1) ∧ (exceptState m1).buffer_cols = sc ∧
      (exceptState m1).buffer_rows = sr)
    (h2 : ∀ t, m1 = .ok t → BufInv t → t.buffer_cols = sc → t.buffer_rows = sr →
      BufInv (exceptState (k t)) ∧ (exceptState (k t)).buffer_cols = sc ∧
        (exceptState (k t)).buffer_rows = sr) :
    BufInv (exceptState (m1.bind k)) ∧ (exceptState (m1.bind k)).buffer_cols = sc ∧
      (exceptState (m1.bind k)).buffer_rows = sr := by
  cases m1 with
  | error e => exact h1
  | ok t => exact h2 t rfl h1.1 h1.2.1 h1.2.2

theorem vlineMiddle_inv (n : Nat) : ∀ (s : St) (xb p e color : Nat), e - p ≤ n →
    BufInv s →
    BufInv (exceptState (vlineMiddle s xb p e color)) ∧
    (exceptState (vlineMiddle s xb p e color)).buffer_cols = s.buffer_cols ∧
    (exceptState (vlineMiddle s xb p e color)).buffer_rows = s.buffer_rows := by
  induction n with
  | zero =>
    intro s xb p e color hn hs
    rw [vlineMiddle, dif_neg (by omega)]
    exact ⟨hs, rfl, rfl⟩
  | succ n ih =>
    intro s xb p e color hn hs
    by_cases hpe : p < e
    · rw [vlineMiddle, dif_pos hpe]
      refine bind_inv s.buffer_cols s.buffer_rows (pyModifyByte_inv (fun b _ => by split <;> omega) s _ hs) ?_
      intro t _ ht htc htr
      obtain ⟨h1, h2, h3⟩ := ih t xb (p + 1) e color (by omega) ht
      exact ⟨h1, by rw [h2, htc], by rw [h3, htr]⟩
    · rw [vlineMiddle, dif_neg hpe]
      exact ⟨hs, rfl, rfl⟩

theorem hlineLoop_inv : ∀ (n : Nat) (s : St) (offset step bit_mask color : Nat),
    bit_mask ≤ 255 → BufInv s →
    BufInv (exceptState (hlineLoop s offset step bit_mask color n)) ∧
    (exceptState (hlineLoop s offset step bit_mask color n)).buffer_cols = s.buffer_cols ∧
    (exceptState (hlineLoop s offset step bit_mask color n)).buffer_rows = s.buffer_rows := by
  intro n
  induction n with
  | zero =>
    intro s offset step bit_mask color hm hs
    exact ⟨hs, rfl, rfl⟩
  | succ n ih =>
    intro s offset step bit_mask color hm hs
    rw [hlineLoop]
    refine bind_inv s.buffer_cols s.buffer_rows (draw_fast_helper_inv s offset bit_mask color hm hs) ?_
    intro t _ ht htc htr
    obtain ⟨h1, h2, h3⟩ := ih t (offset + step) step bit_mask color hm ht
    exact ⟨h1, by rw [h2, htc], by rw [h3, htr]⟩

theorem foldlM_inv {α : Type} (f : St → α → Except St St)
    (hf : ∀ (t : St) (a : α), BufInv t →
      BufInv (exceptState (f t a)) ∧ (exceptState (f t a)).buffer_cols = t.buffer_cols ∧
        (exceptState (f t a)).buffer_rows = t.buffer_rows) :
    ∀ (l : List α) (s : St), BufInv s →
    BufInv (exceptState (l.foldlM f s)) ∧
    (exceptState (l.foldlM f s)).buffer_cols = s.buffer_cols ∧
    (exceptState (l.foldlM f s)).buffer_rows = s.buffer_rows := by
  intro l
  induction l with
  | nil =>
    intro s hs
    exact ⟨hs, rfl, rfl⟩
  | cons a l ih =>
    intro s hs
    rw [List.foldlM_cons]
    refine bind_inv s.buffer_cols s.buffer_rows (hf s a hs) ?_
    intro t _ ht htc htr
    obtain ⟨h1, h2, h3⟩ := ih t ht
    exact ⟨h1, by rw [h2, htc], by rw [h3, htr]⟩

theorem mask_start_le (r : Nat) : (0xFF <<< r) &&& 0xFF ≤ 255 :=
  Nat.and_le_right

theorem mask_shift_le (a m : Nat) : ((a <<< m) &&& 0xFF) >>> m ≤ 255 :=
  le_trans (shiftRight_le_self _ _) Nat.and_le_right

theorem mask_end_le (a : Nat) : 0xFF >>> a ≤ 255 :=
  shiftRight_le_self 255 a

theorem mask_bit_le (k : Nat) : 1 <<< (k % 8) ≤ 255 := by
  rw [Nat.one_shiftLeft]
  have h8 : k % 8 ≤ 7 := by omega
  calc 2 ^ (k % 8) ≤ 2 ^ 7 := Nat.pow_le_pow_right (by norm_num) h8
  _ ≤ 255 := by norm_num

theorem draw_pixel_inv (s : St) (x y : Int) (color : Nat) (hs : BufInv s) :
    BufInv (exceptState (draw_pixel s x y color)) := by
  unfold draw_pixel
  split
  · exact hs
  · simp only [draw_pixel_core]
    exact (draw_fast_helper_inv s _ _ color (mask_bit_le _) hs).1

theorem draw_fast_vline_inv (s : St) (x y h : Int) (color : Nat) (hs : BufInv s) :
    BufInv (exceptState (draw_fast_vline s x y h color)) := by
  unfold draw_fast_vline
  split
  · exact hs
  · simp only [draw_fast_vline_core]
    split
    · exact (draw_fast_helper_inv s _ _ color (mask_shift_le _ _) hs).1
    · refine (bind_inv s.buffer_cols s.buffer_rows ?_ ?_).1
      · split
        · exact draw_fast_helper_inv s _ _ color (mask_start_le _) hs
        · exact ⟨hs, rfl, rfl⟩
      · intro t _ ht htc htr
        refine bind_inv s.buffer_cols s.buffer_rows ?_ ?_
        · split
          · obtain ⟨h1, h2, h3⟩ := draw_fast_helper_inv t _ _ color (mask_end_le _) ht
            exact ⟨h1, by rw [h2, htc], by rw [h3, htr]⟩
          · exact ⟨ht, htc, htr⟩
        · intro u _ hu huc hur
          obtain ⟨h1, h2, h3⟩ := vlineMiddle_inv
            ((y.toNat + h.toNat) / 8) u (x.toNat * (s.buffer_rows / 8))
            (if y.toNat % 8 ≠ 0 then y.toNat / 8 + 1 else y.toNat / 8)
            ((y.toNat + h.toNat) / 8) color (Nat.sub_le _ _) hu
          exact ⟨h1, by rw [h2, huc], by rw [h3, hur]⟩

theorem draw_fast_hline_inv (s : St) (x y w : Int) (color : Nat) (hs : BufInv s) :
    BufInv (exceptState (draw_fast_hline s x y w color)) := by
  unfold draw_fast_hline
  split
  · exact hs
  · simp only [draw_fast_hline_core]
    split
    · exact hs
    · exact (hlineLoop_inv _ s _ _ _ color (mask_bit_le _) hs).1

theorem invert_rect_fast_inv (s : St) (x y w h : Int) (hs : BufInv s) :
    BufInv (exceptState (invert_rect_fast s x y w h)) := by
  unfold invert_rect_fast
  refine (foldlM_inv _ ?_ _ s hs).1
  intro t i ht
  refine foldlM_inv _ ?_ _ t ht
  intro u _ hu
  exact pyModifyByte_inv (fun b hb => byte_xor_le hb) u _ hu

theorem clear_display_inv (s : St) (hs : BufInv s) : BufInv (clear_display s) := by
  unfold clear_display
  constructor
  · simpa [List.length_map] using hs.1
  · intro b hb
    simp only [List.mem_map] at hb
    obtain ⟨a, _, hab⟩ := hb
    omega

/-- Claim C10: every public buffer operation preserves the invariant that
the buffer length is buffer_cols * (buffer_rows / 8) and every stored cell
is a byte in 0..255, for arbitrary arguments, whether the call returns
normally or raises. -/
theorem c10_invariant_preservation (s : St) (hs : BufInv s) :
    (∀ (x y : Int) (color : Nat), BufInv (exceptState (draw_pixel s x y color))) ∧
    (∀ (x y h : Int) (color : Nat), BufInv (exceptState (draw_fast_vline s x y h color))) ∧
    (∀ (x y w : Int) (color : Nat), BufInv (exceptState (draw_fast_hline s x y w color))) ∧
    (∀ x y w h : Int, BufInv (exceptState (invert_rect_fast s x y w h))) ∧
    BufInv (clear_display s) :=
  ⟨fun x y color => draw_pixel_inv s x y color hs,
   fun x y h color => draw_fast_vline_inv s x y h color hs,
   fun x y w color => draw_fast_hline_inv s x y w color hs,
   fun x y w h => invert_rect_fast_inv s x y w h hs,
   clear_display_inv s hs⟩

theorem c10_invariant_preservation_witness :
    BufInv (clear_display (mkSSD1306V 64 2)) :=
  (c10_invariant_preservation (mkSSD1306V 64 2) ⟨by decide, by decide⟩).2.2.2.2

/-! Claim C6: set then get. -/

theorem offset_lt (bpc cols x q : Nat) (hx : x < cols) (hq : q < bpc) :
    q + bpc * x < cols * bpc := by
  calc q + bpc * x < bpc + bpc * x := by omega
  _ = bpc * (x + 1) := by ring
  _ ≤ bpc * cols := Nat.mul_le_mul_left bpc hx
  _ = cols * bpc := Nat.mul_comm bpc cols

theorem bit_brute_get_set : ∀ (b : Fin 256) (k : Fin 8),
    ((b.val ||| (1 <<< k.val)) >>> k.val) &&& 1 = 1 := by decide

theorem bit_brute_set_le : ∀ (b : Fin 256) (k : Fin 8),
    (b.val ||| (1 <<< k.val)) ≤ 255 := by decide

theorem bit_brute_get_clear : ∀ (b : Fin 256) (k : Fin 8),
    (((b.val ||| (1 <<< k.val)) &&& (255 - (1 <<< k.val))) >>> k.val) &&& 1 = 0 := by
  decide

theorem draw_pixel_on_eq (s : St) (x y : Nat)
    (hx : x < s.buffer_cols) (hy : y < s.buffer_rows)
    (hj : y / 8 + (s.buffer_rows / 8) * x < s.buffer.length) :
    draw_pixel s (x : Int) (y : Int) 1 =
      .ok { s with buffer := (orAt s.buffer (y / 8 + (s.buffer_rows / 8) * x) (1 <<< (y % 8))) } := by
  unfold draw_pixel
  rw [if_neg (by omega)]
  simp only [draw_pixel_core, draw_fast_helper, Int.toNat_natCast]
  rw [if_pos (by norm_num)]
  unfold pyModifyByte
  rw [pyIdx_coe, if_pos hj]
  rfl

theorem draw_pixel_off_eq (s : St) (x y : Nat)
    (hx : x < s.buffer_cols) (hy : y < s.buffer_rows)
    (hj : y / 8 + (s.buffer_rows / 8) * x < s.buffer.length) :
    draw_pixel s (x : Int) (y : Int) 0 =
      .ok { s with buffer := (s.buffer.set (y / 8 + (s.buffer_rows / 8) * x) (s.buffer.getD (y / 8 + (s.buffer_rows / 8) * x) 0 &&& (0xFF - 1 <<< (y % 8)))) } := by
  unfold draw_pixel
  rw [if_neg (by omega)]
  simp only [draw_pixel_core, draw_fast_helper, Int.toNat_natCast]
  rw [if_neg (by norm_num)]
  unfold pyModifyByte
  rw [pyIdx_coe, if_pos hj]

theorem get_pixel_eq (s : St) (x y : Nat)
    (hx : x < s.buffer_cols) (hy : y < s.buffer_rows)
    (hj : y / 8 + (s.buffer_rows / 8) * x < s.buffer.length) :
    get_pixel s (x : Int) (y : Int) =
      .ok (some ((s.buffer.getD (y / 8 + (s.buffer_rows / 8) * x) 0 >>> (y % 8)) &&& 1)) := by
  unfold get_pixel
  rw [if_neg (by omega)]
  simp only [Int.toNat_natCast]
  rw [pyIdx_coe, if_pos hj]

theorem bit_get_set {b k : Nat} (hb : b ≤ 255) (hk : k < 8) :
    ((b ||| (1 <<< k)) >>> k) &&& 1 = 1 :=
  bit_brute_get_set ⟨b, by omega⟩ ⟨k, hk⟩

theorem bit_get_clear {b k : Nat} (hb : b ≤ 255) (hk : k < 8) :
    (((b ||| (1 <<< k)) &&& (255 - (1 <<< k))) >>> k) &&& 1 = 0 :=
  bit_brute_get_clear ⟨b, by omega⟩ ⟨k, hk⟩

/-- Claim C6: for in-bounds coordinates on a well-formed buffer, drawing a
pixel on makes get_pixel read 1, and then drawing it off makes get_pixel
read 0. -/
theorem c6_set_get_roundtrip (s : St) (x y : Nat)
    (h8 : 8 ∣ s.buffer_rows)
    (hlen : s.buffer.length = s.buffer_cols * (s.buffer_rows / 8))
    (hb : ∀ b ∈ s.buffer, b ≤ 255)
    (hx : x < s.buffer_cols) (hy : y < s.buffer_rows) :
    ∃ s1 s2,
      draw_pixel s (x : Int) (y : Int) 1 = .ok s1 ∧
      get_pixel s1 (x : Int) (y : Int) = .ok (some 1) ∧
      draw_pixel s1 (x : Int) (y : Int) 0 = .ok s2 ∧
      get_pixel s2 (x : Int) (y : Int) = .ok (some 0) := by
  obtain ⟨c, hc⟩ := h8
  have hq : y / 8 < s.buffer_rows / 8 := by omega
  have hj : (y / 8 + (s.buffer_rows / 8) * x) < s.buffer.length := by
    rw [hlen]
    exact offset_lt _ _ _ _ hx hq
  have hbj : s.buffer.getD (y / 8 + (s.buffer_rows / 8) * x) 0 ≤ 255 := getD_mem_le hb hj
  have hk : y % 8 < 8 := by omega
  have hj1 : (y / 8 + (s.buffer_rows / 8) * x) < ((orAt s.buffer (y / 8 + (s.buffer_rows / 8) * x) (1 <<< (y % 8)))).length := by
    simpa [orAt] using hj
  have hj2 : (y / 8 + (s.buffer_rows / 8) * x) < (((orAt s.buffer (y / 8 + (s.buffer_rows / 8) * x) (1 <<< (y % 8))).set (y / 8 + (s.buffer_rows / 8) * x) ((orAt s.buffer (y / 8 + (s.buffer_rows / 8) * x) (1 <<< (y % 8))).getD (y / 8 + (s.buffer_rows / 8) * x) 0 &&& (0xFF - 1 <<< (y % 8))))).length := by
    simpa [orAt] using hj
  have hv1 : ((orAt s.buffer (y / 8 + (s.buffer_rows / 8) * x) (1 <<< (y % 8)))).getD (y / 8 + (s.buffer_rows / 8) * x) 0 = s.buffer.getD (y / 8 + (s.buffer_rows / 8) * x) 0 ||| (1 <<< (y % 8)) := by
    simp only [orAt]
    exact getD_set_self _ _ _ hj
  have hv2 : (((orAt s.buffer (y / 8 + (s.buffer_rows / 8) * x) (1 <<< (y % 8))).set (y / 8 + (s.buffer_rows / 8) * x) ((orAt s.buffer (y / 8 + (s.buffer_rows / 8) * x) (1 <<< (y % 8))).getD (y / 8 + (s.buffer_rows / 8) * x) 0 &&& (0xFF - 1 <<< (y % 8))))).getD (y / 8 + (s.buffer_rows / 8) * x) 0 =
      (s.buffer.getD (y / 8 + (s.buffer_rows / 8) * x) 0 ||| (1 <<< (y % 8))) &&& (0xFF - 1 <<< (y % 8)) := by
    rw [getD_set_self _ _ _ hj1, hv1]
  have e1 : draw_pixel s (x : Int) (y : Int) 1 = .ok { s with buffer := (orAt s.buffer (y / 8 + (s.buffer_rows / 8) * x) (1 <<< (y % 8))) } :=
    draw_pixel_on_eq s x y hx hy hj
  have e2 : get_pixel { s with buffer := (orAt s.buffer (y / 8 + (s.buffer_rows / 8) * x) (1 <<< (y % 8))) } (x : Int) (y : Int) = .ok (some 1) := by
    rw [get_pixel_eq { s with buffer := (orAt s.buffer (y / 8 + (s.buffer_rows / 8) * x) (1 <<< (y % 8))) } x y hx hy hj1]
    rw [show ({ s with buffer := (orAt s.buffer (y / 8 + (s.buffer_rows / 8) * x) (1 <<< (y % 8))) } : St).buffer = (orAt s.buffer (y / 8 + (s.buffer_rows / 8) * x) (1 <<< (y % 8))) from rfl] at *
    rw [hv1, bit_get_set hbj hk]
  have e3 : draw_pixel { s with buffer := (orAt s.buffer (y / 8 + (s.buffer_rows / 8) * x) (1 <<< (y % 8))) } (x : Int) (y : Int) 0 = .ok { s with buffer := ((orAt s.buffer (y / 8 + (s.buffer_rows / 8) * x) (1 <<< (y % 8))).set (y / 8 + (s.buffer_rows / 8) * x) ((orAt s.buffer (y / 8 + (s.buffer_rows / 8) * x) (1 <<< (y % 8))).getD (y / 8 + (s.buffer_rows / 8) * x) 0 &&& (0xFF - 1 <<< (y % 8)))) } :=
    draw_pixel_off_eq { s with buffer := (orAt s.buffer (y / 8 + (s.buffer_rows / 8) * x) (1 <<< (y % 8))) } x y hx hy hj1
  have e4 : get_pixel { s with buffer := ((orAt s.buffer (y / 8 + (s.buffer_rows / 8) * x) (1 <<< (y % 8))).set (y / 8 + (s.buffer_rows / 8) * x) ((orAt s.buffer (y / 8 + (s.buffer_rows / 8) * x) (1 <<< (y % 8))).getD (y / 8 + (s.buffer_rows / 8) * x) 0 &&& (0xFF - 1 <<< (y % 8)))) } (x : Int) (y : Int) = .ok (some 0) := by
    rw [get_pixel_eq { s with buffer := ((orAt s.buffer (y / 8 + (s.buffer_rows / 8) * x) (1 <<< (y % 8))).set (y / 8 + (s.buffer_rows / 8) * x) ((orAt s.buffer (y / 8 + (s.buffer_rows / 8) * x) (1 <<< (y % 8))).getD (y / 8 + (s.buffer_rows / 8) * x) 0 &&& (0xFF - 1 <<< (y % 8)))) } x y hx hy hj2]
    rw [show ({ s with buffer := ((orAt s.buffer (y / 8 + (s.buffer_rows / 8) * x) (1 <<< (y % 8))).set (y / 8 + (s.buffer_rows / 8) * x) ((orAt s.buffer (y / 8 + (s.buffer_rows / 8) * x) (1 <<< (y % 8))).getD (y / 8 + (s.buffer_rows / 8) * x) 0 &&& (0xFF - 1 <<< (y % 8)))) } : St).buffer = ((orAt s.buffer (y / 8 + (s.buffer_rows / 8) * x) (1 <<< (y % 8))).set (y / 8 + (s.buffer_rows / 8) * x) ((orAt s.buffer (y / 8 + (s.buffer_rows / 8) * x) (1 <<< (y % 8))).getD (y / 8 + (s.buffer_rows / 8) * x) 0 &&& (0xFF - 1 <<< (y % 8)))) from rfl] at *
    rw [hv2, bit_get_clear hbj hk]
  exact ⟨_, _, e1, e2, e3, e4⟩

theorem c6_set_get_roundtrip_witness :
    ∃ s1 s2,
      draw_pixel (mkSSD1306V 64 2) (1 : Nat) (9 : Nat) 1 = .ok s1 ∧
      get_pixel s1 (1 : Nat) (9 : Nat) = .ok (some 1) ∧
      draw_pixel s1 (1 : Nat) (9 : Nat) 0 = .ok s2 ∧
      get_pixel s2 (1 : Nat) (9 : Nat) = .ok (some 0) :=
  c6_set_get_roundtrip (mkSSD1306V 64 2) 1 9 (by decide) (by decide) (by decide)
    (by decide) (by decide)

/-! Claim C7: applying invert_rect_fast twice with identical arguments is
the identity, whenever the first call returns normally. -/

theorem xorByteAt_ok_shape {s t : St} {o : Int} (h : xorByteAt s o = .ok t) :
    ∃ j, pyIdx s.buffer.length o = some j ∧
      t = { s with buffer := s.buffer.set j (s.buffer.getD j 0 ^^^ 0xFF) } := by
  unfold xorByteAt pyModifyByte at h
  cases hj : pyIdx s.buffer.length o with
  | none =>
    rw [hj] at h
    cases h
  | some j =>
    rw [hj] at h
    cases h
    exact ⟨j, rfl, rfl⟩

theorem xorByteAt_error_eq {s t : St} {o : Int} (h : xorByteAt s o = .error t) :
    t = s := by
  unfold xorByteAt pyModifyByte at h
  cases hj : pyIdx s.buffer.length o with
  | none =>
    rw [hj] at h
    cases h
    rfl
  | some j =>
    rw [hj] at h
    cases h

theorem xor255_xor255 (b : Nat) : (b ^^^ 0xFF) ^^^ 0xFF = b := by
  rw [Nat.xor_assoc, Nat.xor_self, Nat.xor_zero]

theorem xorByteAt_set_ok (s : St) {j : Nat} {o : Int}
    (hj : pyIdx s.buffer.length o = some j) :
    xorByteAt s o = .ok { s with buffer := s.buffer.set j (s.buffer.getD j 0 ^^^ 0xFF) } := by
  unfold xorByteAt pyModifyByte
  rw [hj]

theorem xorByteAt_invol {s t : St} {o : Int} (h : xorByteAt s o = .ok t) :
    xorByteAt t o = .ok s := by
  obtain ⟨j, hj, rfl⟩ := xorByteAt_ok_shape h
  have hjl : j < s.buffer.length := pyIdx_some_lt hj
  have hj2 : pyIdx ({ s with buffer := s.buffer.set j (s.buffer.getD j 0 ^^^ 0xFF) } : St).buffer.length o = some j := by
    simpa [List.length_set] using hj
  rw [xorByteAt_set_ok _ hj2]
  have hv : (s.buffer.set j (s.buffer.getD j 0 ^^^ 0xFF)).getD j 0 = s.buffer.getD j 0 ^^^ 0xFF :=
    getD_set_self _ _ _ hjl
  simp only [hv, xor255_xor255, List.set_set]
  rw [set_getD_self _ _ hjl]

theorem xorByteAt_comm {s s1 s2 : St} {a b : Int}
    (h1 : xorByteAt s a = .ok s1) (h2 : xorByteAt s1 b = .ok s2) :
    ∃ u, xorByteAt s b = .ok u ∧ xorByteAt u a = .ok s2 := by
  obtain ⟨j, hj, rfl⟩ := xorByteAt_ok_shape h1
  obtain ⟨i, hi, rfl⟩ := xorByteAt_ok_shape h2
  simp only [List.length_set] at hi
  have hjl : j < s.buffer.length := pyIdx_some_lt hj
  have hil : i < s.buffer.length := pyIdx_some_lt hi
  by_cases hij : j = i
  · subst hij
    refine ⟨{ s with buffer := s.buffer.set j (s.buffer.getD j 0 ^^^ 0xFF) }, xorByteAt_set_ok s hi, ?_⟩
    have hj2 : pyIdx ({ s with buffer := s.buffer.set j (s.buffer.getD j 0 ^^^ 0xFF) } : St).buffer.length a = some j := by
      simpa [List.length_set] using hj
    rw [xorByteAt_set_ok _ hj2]
  · refine ⟨{ s with buffer := s.buffer.set i (s.buffer.getD i 0 ^^^ 0xFF) }, xorByteAt_set_ok s hi, ?_⟩
    have hj2 : pyIdx ({ s with buffer := s.buffer.set i (s.buffer.getD i 0 ^^^ 0xFF) } : St).buffer.length a = some j := by
      simpa [List.length_set] using hj
    rw [xorByteAt_set_ok _ hj2]
    simp only [Except.ok.injEq, St.mk.injEq, true_and]
    simp only [getD_set_ne _ _ _ _ (Ne.symm hij), getD_set_ne _ _ _ _ hij]
    exact List.set_comm _ _ s.buffer (Ne.symm hij)

theorem foldXor_push (L : List Int) : ∀ {s s1 t : St} {o : Int},
    xorByteAt s o = .ok s1 → foldXor L s1 = .ok t →
    ∃ u, foldXor L s = .ok u ∧ xorByteAt u o = .ok t := by
  induction L with
  | nil =>
    intro s s1 t o h1 h2
    cases h2
    exact ⟨s, rfl, h1⟩
  | cons a L ih =>
    intro s s1 t o h1 h2
    rw [foldXor] at h2
    cases hv : xorByteAt s1 a with
    | error e =>
      rw [hv] at h2
      cases h2
    | ok v =>
      rw [hv] at h2
      simp only [Except.bind] at h2
      obtain ⟨w, hw1, hw2⟩ := xorByteAt_comm h1 hv
      obtain ⟨u, hu1, hu2⟩ := ih hw2 h2
      refine ⟨u, ?_, hu2⟩
      rw [foldXor, hw1]
      simpa [Except.bind] using hu1

theorem foldXor_undo (L : List Int) : ∀ {s t : St},
    foldXor L s = .ok t → foldXor L t = .ok s := by
  induction L with
  | nil =>
    intro s t h
    cases h
    rfl
  | cons a L ih =>
    intro s t h
    rw [foldXor] at h
    cases ha : xorByteAt s a with
    | error e =>
      rw [ha] at h
      cases h
    | ok s1 =>
      rw [ha] at h
      simp only [Except.bind] at h
      obtain ⟨u, hu1, hu2⟩ := foldXor_push L ha h
      rw [foldXor, xorByteAt_invol hu2]
      simpa [Except.bind] using ih hu1

theorem xorByteAt_bpc (s : St) (o : Int) :
    (exceptState (xorByteAt s o)).bytes_per_col = s.bytes_per_col ∧
    (exceptState (xorByteAt s o)).buffer.length = s.buffer.length := by
  unfold xorByteAt pyModifyByte
  cases hj : pyIdx s.buffer.length o with
  | none => exact ⟨rfl, rfl⟩
  | some j => exact ⟨rfl, by simp [exceptState, List.length_set]⟩

theorem foldXor_ok_bpc (L : List Int) : ∀ {s t : St}, foldXor L s = .ok t →
    t.bytes_per_col = s.bytes_per_col := by
  induction L with
  | nil =>
    intro s t h
    cases h
    rfl
  | cons a L ih =>
    intro s t h
    rw [foldXor] at h
    cases ha : xorByteAt s a with
    | error e =>
      rw [ha] at h
      cases h
    | ok s1 =>
      rw [ha] at h
      simp only [Except.bind] at h
      have h1 := ih h
      have h2 := (xorByteAt_bpc s a).1
      rw [ha] at h2
      simp only [exceptState] at h2
      rw [h1, h2]

theorem inner_foldlM_eq (i y : Int) (B : Nat) (L : List Int) : ∀ s : St,
    s.bytes_per_col = B →
    L.foldlM (fun s2 _ => xorByteAt s2 (i * (s2.bytes_per_col : Int) + y)) s =
      foldXor (L.map (fun _ => i * (B : Int) + y)) s := by
  induction L with
  | nil =>
    intro s _
    rfl
  | cons a L ih =>
    intro s hB
    simp only [List.foldlM_cons, List.map_cons]
    rw [foldXor, hB]
    cases hv : xorByteAt s (i * (B : Int) + y) with
    | error e =>
      rfl
    | ok v =>
      have hvB : v.bytes_per_col = B := by
        have h2 := (xorByteAt_bpc s (i * (B : Int) + y)).1
        rw [hv] at h2
        simp only [exceptState] at h2
        rw [h2, hB]
      exact ih v hvB

theorem foldXor_append (A C : List Int) : ∀ s : St,
    foldXor (A ++ C) s = (foldXor A s).bind (fun s1 => foldXor C s1) := by
  induction A with
  | nil =>
    intro s
    rfl
  | cons a A ih =>
    intro s
    rw [List.cons_append, foldXor, foldXor]
    cases ha : xorByteAt s a with
    | error e => rfl
    | ok v =>
      simp only [Except.bind]
      exact ih v

theorem invert_flatten (x y w h : Int) : ∀ (s : St) (B : Nat),
    s.bytes_per_col = B →
    invert_rect_fast s x y w h = foldXor (invOffsets B x y w h) s := by
  have main : ∀ (rows : List Int) (s : St) (B : Nat), s.bytes_per_col = B →
      rows.foldlM (fun s1 i =>
        (pyRangeI (y / 8) ((y + h) / 8)).foldlM
          (fun s2 _ => xorByteAt s2 (i * (s2.bytes_per_col : Int) + y)) s1) s =
      foldXor (rows.flatMap (fun i =>
        (pyRangeI (y / 8) ((y + h) / 8)).map (fun _ => i * (B : Int) + y))) s := by
    intro rows
    induction rows with
    | nil =>
      intro s B hB
      rfl
    | cons r rows ih =>
      intro s B hB
      simp only [List.foldlM_cons, List.flatMap_cons]
      rw [foldXor_append]
      rw [inner_foldlM_eq r y B _ s hB]
      cases hv : foldXor ((pyRangeI (y / 8) ((y + h) / 8)).map
          (fun _ => r * (B : Int) + y)) s with
      | error e =>
        rfl
      | ok v =>
        exact ih v B ((foldXor_ok_bpc _ hv).trans hB)
  intro s B hB
  unfold invert_rect_fast invOffsets
  exact main (pyRangeI x (x + w)) s B hB

/-- Claim C7: two successive invert_rect_fast calls with identical
arguments restore the original state whenever the first call returns
normally; in particular a drawn full-window rectangle is restored by
inverting it twice. -/
theorem c7_double_invert (s : St) (x y w h : Int) (s1 : St)
    (hok : invert_rect_fast s x y w h = .ok s1) :
    invert_rect_fast s1 x y w h = .ok s := by
  have h1 := invert_flatten x y w h s s.bytes_per_col rfl
  rw [h1] at hok
  have hbpc : s1.bytes_per_col = s.bytes_per_col := foldXor_ok_bpc _ hok
  have h2 := invert_flatten x y w h s1 s.bytes_per_col hbpc
  rw [h2]
  exact foldXor_undo _ hok

theorem c7_double_invert_witness :
    invert_rect_fast ⟨128, 32, 16, 2, 0, 2, [250, 9, 252, 4]⟩ 0 0 2 8 =
      .ok ⟨128, 32, 16, 2, 0, 2, [5, 9, 3, 4]⟩ :=
  c7_double_invert ⟨128, 32, 16, 2, 0, 2, [5, 9, 3, 4]⟩ 0 0 2 8
    ⟨128, 32, 16, 2, 0, 2, [250, 9, 252, 4]⟩ (by decide)

/-! Claim C1, part 1: pure buffer-level lemmas about the OR-run of single
pixel bits and the per-page masks the fast path writes. -/

theorem byte_or255_brute : ∀ b : Fin 256, b.val ||| 255 = 255 := by decide

theorem byte_or255 {b : Nat} (hb : b ≤ 255) : b ||| 255 = 255 :=
  byte_or255_brute ⟨b, by omega⟩

theorem getD_le_255 {l : List Nat} (hb : ∀ c ∈ l, c ≤ 255) (o : Nat) :
    l.getD o 0 ≤ 255 := by
  by_cases ho : o < l.length
  · exact getD_mem_le hb ho
  · have hnone : l[o]? = none := List.getElem?_eq_none (by omega)
    simp [List.getD_eq_getElem?_getD, hnone]

theorem mask_start_eq (r : Nat) (hr : r < 8) :
    (0xFF <<< r) &&& 0xFF = (2 ^ (8 - r) - 1) <<< r := by
  interval_cases r <;> decide

theorem mask_end_eq (rem : Nat) (h0 : 0 < rem) (h8 : rem < 8) :
    0xFF >>> (8 - rem) = 2 ^ rem - 1 := by
  interval_cases rem <;> decide

theorem mask_intra_eq (r h : Nat) (hh : 0 < h) (hrh : r + h < 8) :
    ((((0xFF <<< r) &&& 0xFF) <<< (8 - r - h)) &&& 0xFF) >>> (8 - r - h) =
      (2 ^ h - 1) <<< r := by
  have hr : r ≤ 6 := by omega
  have hhh : h ≤ 7 := by omega
  interval_cases r <;> interval_cases h <;> first | decide | (exfalso; omega)

theorem mask_merge (r k : Nat) (hrk : r + (k + 2) ≤ 8) :
    (1 <<< r) ||| ((2 ^ (k + 1) - 1) <<< (r + 1)) = (2 ^ (k + 2) - 1) <<< r := by
  have hr : r ≤ 6 := by omega
  have hk : k ≤ 6 := by omega
  interval_cases r <;> interval_cases k <;> decide

theorem orAt_length (l : List Nat) (o m : Nat) : (orAt l o m).length = l.length := by
  simp [orAt]

theorem orAt_oob (l : List Nat) {o : Nat} (m : Nat) (ho : l.length ≤ o) :
    orAt l o m = l := by
  simp [orAt, List.set_eq_of_length_le ho]

theorem orAt_orAt_same (l : List Nat) (o a b : Nat) :
    orAt (orAt l o a) o b = orAt l o (a ||| b) := by
  by_cases ho : o < l.length
  · unfold orAt
    rw [getD_set_self _ _ _ ho, List.set_set, Nat.lor_assoc]
  · have hol : l.length ≤ o := by omega
    rw [orAt_oob _ _ (by rw [orAt_length]; exact hol), orAt_oob _ _ hol, orAt_oob _ _ hol]

theorem orAt_comm (l : List Nat) {o1 o2 : Nat} (m1 m2 : Nat) (h : o1 ≠ o2) :
    orAt (orAt l o1 m1) o2 m2 = orAt (orAt l o2 m2) o1 m1 := by
  unfold orAt
  rw [getD_set_ne _ _ _ _ h, getD_set_ne _ _ _ _ (Ne.symm h)]
  exact List.set_comm _ _ l h

theorem orAt_bytes {l : List Nat} {m : Nat} (hb : ∀ c ∈ l, c ≤ 255)
    (hm : m ≤ 255) : ∀ c ∈ orAt l o m, c ≤ 255 := by
  intro c hc
  rcases List.mem_or_eq_of_mem_set hc with hc | hc
  · exact hb c hc
  · subst hc
    exact byte_or_le (getD_le_255 hb o) hm

theorem orRunB_page (bpc x : Nat) : ∀ (k : Nat) (l : List Nat) (y : Nat),
    y % 8 + (k + 1) ≤ 8 →
    orRunB bpc x l y (k + 1) =
      orAt l (y / 8 + bpc * x) ((2 ^ (k + 1) - 1) <<< (y % 8)) := by
  intro k
  induction k with
  | zero =>
    intro l y _
    rw [orRunB, orRunB]
    norm_num
  | succ k ih =>
    intro l y hk
    rw [orRunB]
    have hr7 : y % 8 < 7 := by omega
    have hdiv : (y + 1) / 8 = y / 8 := by omega
    have hmod : (y + 1) % 8 = y % 8 + 1 := by omega
    rw [ih _ (y + 1) (by omega), hdiv, hmod, orAt_orAt_same,
      mask_merge _ _ (by omega)]

theorem orRunB_split (bpc x : Nat) : ∀ (h1 h2 : Nat) (l : List Nat) (y : Nat),
    orRunB bpc x l y (h1 + h2) =
      orRunB bpc x (orRunB bpc x l y h1) (y + h1) h2 := by
  intro h1
  induction h1 with
  | zero =>
    intro h2 l y
    rw [orRunB]
    norm_num
  | succ h1 ih =>
    intro h2 l y
    rw [show h1 + 1 + h2 = (h1 + h2) + 1 from by omega, orRunB, orRunB, ih]
    rw [show y + 1 + h1 = y + (h1 + 1) from by omega]

theorem mfoldOr_stop (xb : Nat) (l : List Nat) {p e : Nat} (h : ¬ p < e) :
    mfoldOr xb l p e = l := by
  rw [mfoldOr, dif_neg h]

theorem mfoldOr_step (xb : Nat) (l : List Nat) {p e : Nat} (h : p < e) :
    mfoldOr xb l p e = mfoldOr xb (orAt l (p + xb) 0xFF) (p + 1) e := by
  rw [mfoldOr, dif_pos h]

theorem orRunB_full_page (bpc x : Nat) (l : List Nat) (y : Nat) (hy : y % 8 = 0) :
    orRunB bpc x l y 8 = orAt l (y / 8 + bpc * x) 255 := by
  have h := orRunB_page bpc x 7 l y (by omega)
  rw [hy, Nat.shiftLeft_zero] at h
  exact h

theorem orRunB_start_page (bpc x : Nat) (l : List Nat) (y : Nat) :
    orRunB bpc x l y (8 - y % 8) =
      orAt l (y / 8 + bpc * x) ((2 ^ (8 - y % 8) - 1) <<< (y % 8)) := by
  obtain ⟨k, hk⟩ : ∃ k, 8 - y % 8 = k + 1 := ⟨7 - y % 8, by omega⟩
  rw [hk, orRunB_page bpc x k l y (by omega), ← hk]

theorem orRunB_pages (bpc x : Nat) : ∀ (m : Nat) (l : List Nat) (p rem : Nat),
    rem < 8 →
    orRunB bpc x l (8 * p) (8 * m + rem) =
      (if rem = 0 then mfoldOr (bpc * x) l p (p + m)
       else orAt (mfoldOr (bpc * x) l p (p + m)) ((p + m) + bpc * x) (2 ^ rem - 1)) := by
  intro m
  induction m with
  | zero =>
    intro l p rem h8
    by_cases h0 : rem = 0
    · subst h0
      rw [if_pos rfl, mfoldOr_stop _ _ (by omega)]
      rfl
    · rw [if_neg h0]
      obtain ⟨k, rfl⟩ := Nat.exists_eq_succ_of_ne_zero h0
      rw [show 8 * 0 + (k + 1) = k + 1 from by omega]
      rw [orRunB_page bpc x k l (8 * p) (by omega)]
      rw [mfoldOr_stop _ _ (by omega)]
      rw [show (8 * p) / 8 = p from by omega, show (8 * p) % 8 = 0 from by omega,
        Nat.shiftLeft_zero, show p + 0 = p from by omega]
  | succ m ih =>
    intro l p rem h8
    rw [show 8 * (m + 1) + rem = 8 + (8 * m + rem) from by omega]
    rw [orRunB_split]
    rw [orRunB_full_page bpc x l (8 * p) (by omega)]
    rw [show (8 * p) / 8 = p from by omega]
    rw [show 8 * p + 8 = 8 * (p + 1) from by omega]
    rw [ih (orAt l (p + bpc * x) 255) (p + 1) rem h8]
    rw [mfoldOr_step _ _ (show p < p + (m + 1) from by omega)]
    rw [show p + 1 + m = p + (m + 1) from by omega]

theorem mfoldOr_orAt_comm (xb : Nat) : ∀ (n : Nat) (l : List Nat) (p e o m : Nat),
    e - p ≤ n → (∀ q, p ≤ q → q < e → q + xb ≠ o) →
    mfoldOr xb (orAt l o m) p e = orAt (mfoldOr xb l p e) o m := by
  intro n
  induction n with
  | zero =>
    intro l p e o m hn hq
    rw [mfoldOr_stop _ _ (by omega), mfoldOr_stop _ _ (by omega)]
  | succ n ih =>
    intro l p e o m hn hq
    by_cases hpe : p < e
    · rw [mfoldOr_step _ _ hpe, mfoldOr_step _ _ hpe]
      rw [orAt_comm _ _ _ (Ne.symm (hq p le_rfl hpe))]
      exact ih _ (p + 1) e o m (by omega) (fun q hq1 hq2 => hq q (by omega) hq2)
    · rw [mfoldOr_stop _ _ hpe, mfoldOr_stop _ _ hpe]

theorem orRunB_eq_spec (bpc x : Nat) (l : List Nat) (y h : Nat) (hh : 0 < h) :
    orRunB bpc x l y h = vlineSpecBuf bpc x y h l := by
  simp only [vlineSpecBuf]
  by_cases hintra : y % 8 + h < 8
  · rw [if_pos hintra]
    obtain ⟨k, rfl⟩ := Nat.exists_eq_succ_of_ne_zero (Nat.pos_iff_ne_zero.mp hh)
    exact orRunB_page bpc x k l y (by omega)
  · rw [if_neg hintra]
    by_cases hr : y % 8 ≠ 0
    · rw [if_pos hr, if_pos hr]
      have hsplit : h = (8 - y % 8) + (h - (8 - y % 8)) := by omega
      conv_lhs => rw [hsplit, orRunB_split]
      rw [orRunB_start_page]
      have hy8 : y + (8 - y % 8) = 8 * (y / 8 + 1) := by omega
      have h2eq : h - (8 - y % 8) =
          8 * ((y + h) / 8 - (y / 8 + 1)) + (y + h) % 8 := by omega
      conv_lhs => rw [hy8, h2eq]
      rw [orRunB_pages bpc x _ _ (y / 8 + 1) ((y + h) % 8) (by omega)]
      rw [show y / 8 + 1 + ((y + h) / 8 - (y / 8 + 1)) = (y + h) / 8 from by omega]
      by_cases hrem : (y + h) % 8 = 0
      · rw [if_pos hrem, if_neg (by omega)]
      · rw [if_neg hrem, if_pos hrem]
        rw [mfoldOr_orAt_comm (bpc * x) ((y + h) / 8) _ (y / 8 + 1) ((y + h) / 8)
          ((y + h) / 8 + bpc * x) (2 ^ ((y + h) % 8) - 1) (by omega)
          (fun q hq1 hq2 => by omega)]
    · rw [if_neg hr, if_neg hr]
      have hr0 : y % 8 = 0 := by omega
      obtain ⟨p, rfl⟩ : ∃ p, y = 8 * p := ⟨y / 8, by omega⟩
      have hq : (8 * p) / 8 = p := by omega
      rw [hq]
      have hhe : h = 8 * ((8 * p + h) / 8 - p) + (8 * p + h) % 8 := by omega
      conv_lhs => rw [hhe]
      rw [orRunB_pages bpc x _ _ p ((8 * p + h) % 8) (by omega)]
      rw [show p + ((8 * p + h) / 8 - p) = (8 * p + h) / 8 from by omega]
      by_cases hrem : (8 * p + h) % 8 = 0
      · rw [if_pos hrem, if_neg (by omega)]
      · rw [if_neg hrem, if_pos hrem]
        rw [mfoldOr_orAt_comm (bpc * x) ((8 * p + h) / 8) _ p ((8 * p + h) / 8)
          ((8 * p + h) / 8 + bpc * x) (2 ^ ((8 * p + h) % 8) - 1) (by omega)
          (fun q hq1 hq2 => by omega)]

/-! Claim C1, part 2: stateful evaluation of the code paths. -/

theorem except_ok_bind (a : St) (k : St → Except St St) :
    (Except.ok a : Except St St).bind k = k a := rfl

theorem pyModifyByte_in (s : St) (o : Nat) (f : Nat → Nat) (ho : o < s.buffer.length) :
    pyModifyByte s (o : Int) f =
      .ok { s with buffer := s.buffer.set o (f (s.buffer.getD o 0)) } := by
  unfold pyModifyByte
  rw [pyIdx_coe, if_pos ho]

theorem draw_fast_helper_on_eq (s : St) (o m : Nat) (ho : o < s.buffer.length) :
    draw_fast_helper s o m 1 = .ok { s with buffer := orAt s.buffer o m } := by
  unfold draw_fast_helper
  rw [if_pos (by norm_num)]
  exact pyModifyByte_in s o _ ho

theorem set_bytes {l : List Nat} {v : Nat} (hb : ∀ c ∈ l, c ≤ 255) (hv : v ≤ 255)
    (j : Nat) : ∀ c ∈ l.set j v, c ≤ 255 := by
  intro c hc
  rcases List.mem_or_eq_of_mem_set hc with hc | hc
  · exact hb c hc
  · omega

theorem mask_start_le255 (r : Nat) (hr : r < 8) : (2 ^ (8 - r) - 1) <<< r ≤ 255 := by
  interval_cases r <;> decide

theorem mask_end_le255 (rem : Nat) (h8 : rem < 8) : 2 ^ rem - 1 ≤ 255 := by
  interval_cases rem <;> decide

theorem vlineMiddle_eq : ∀ (n : Nat) (s : St) (xb p e : Nat),
    e - p ≤ n →
    (∀ c ∈ s.buffer, c ≤ 255) →
    (∀ q, p ≤ q → q < e → q + xb < s.buffer.length) →
    vlineMiddle s xb p e 1 = .ok { s with buffer := mfoldOr xb s.buffer p e } := by
  intro n
  induction n with
  | zero =>
    intro s xb p e hn hb hin
    rw [vlineMiddle, dif_neg (by omega), mfoldOr_stop _ _ (by omega)]
  | succ n ih =>
    intro s xb p e hn hb hin
    by_cases hpe : p < e
    · rw [vlineMiddle, dif_pos hpe]
      have hfun : (fun _ : Nat => if (1 : Nat) ≠ 0 then (0xFF : Nat) else 0x00) =
          fun _ : Nat => 255 := by
        funext b
        norm_num
      rw [hfun]
      rw [pyModifyByte_in s _ _ (hin p le_rfl hpe)]
      rw [except_ok_bind]
      rw [ih _ xb (p + 1) e (by omega)
        (set_bytes hb (by omega) _)
        (fun q h1 h2 => by
          simpa [List.length_set] using hin q (by omega) h2)]
      rw [mfoldOr_step _ _ hpe]
      rw [show orAt s.buffer (p + xb) 0xFF = s.buffer.set (p + xb) 255 from by
        unfold orAt
        rw [byte_or255 (getD_le_255 hb _)]]
    · rw [vlineMiddle, dif_neg hpe, mfoldOr_stop _ _ hpe]

theorem seqPixels_eq : ∀ (h : Nat) (s : St) (x y : Nat),
    8 ∣ s.buffer_rows →
    s.buffer.length = s.buffer_cols * (s.buffer_rows / 8) →
    (∀ c ∈ s.buffer, c ≤ 255) →
    x < s.buffer_cols → y + h ≤ s.buffer_rows →
    seqPixels s (x : Int) (y : Int) h =
      .ok { s with buffer := orRunB (s.buffer_rows / 8) x s.buffer y h } := by
  intro h
  induction h with
  | zero =>
    intro s x y _ _ _ _ _
    rw [seqPixels, orRunB]
  | succ n ih =>
    intro s x y h8 hlen hb hx hyh
    rw [seqPixels]
    have hq : y / 8 < s.buffer_rows / 8 := by
      obtain ⟨c, hc⟩ := h8
      omega
    have hj : y / 8 + (s.buffer_rows / 8) * x < s.buffer.length := by
      rw [hlen]
      exact offset_lt _ _ _ _ hx hq
    rw [draw_pixel_on_eq s x y hx (by omega) hj]
    rw [except_ok_bind]
    rw [show ((y : Nat) : Int) + 1 = ((y + 1 : Nat) : Int) from by push_cast; ring]
    rw [ih { s with buffer := orAt s.buffer (y / 8 + (s.buffer_rows / 8) * x) (1 <<< (y % 8)) } x (y + 1) h8 (by simpa [orAt] using hlen)
      (orAt_bytes hb (mask_bit_le y)) hx (show y + 1 + n ≤ s.buffer_rows from by omega)]
    rw [orRunB]

theorem vline_core_eq (s : St) (x y h : Nat)
    (h8 : 8 ∣ s.buffer_rows)
    (hlen : s.buffer.length = s.buffer_cols * (s.buffer_rows / 8))
    (hb : ∀ c ∈ s.buffer, c ≤ 255)
    (hx : x < s.buffer_cols) (hh : 0 < h) (hyh : y + h ≤ s.buffer_rows) :
    draw_fast_vline_core s x y h 1 =
      .ok { s with buffer := vlineSpecBuf (s.buffer_rows / 8) x y h s.buffer } := by
  obtain ⟨c, hc⟩ := h8
  have hq : y / 8 < s.buffer_rows / 8 := by omega
  have ho1 : y / 8 + (s.buffer_rows / 8) * x < s.buffer.length := by
    rw [hlen]
    exact offset_lt _ _ _ _ hx hq
  have heB : (y + h) / 8 ≤ s.buffer_rows / 8 := by omega
  simp only [draw_fast_vline_core, vlineSpecBuf]
  rw [Nat.mul_comm x (s.buffer_rows / 8)]
  by_cases hintra : y % 8 + h < 8
  · rw [if_pos (show (0 : Int) < 8 - ((y % 8 : Nat) : Int) - (h : Int) from by omega)]
    rw [if_pos hintra]
    rw [show ((8 : Int) - ((y % 8 : Nat) : Int) - (h : Int)).toNat = 8 - y % 8 - h from by
      omega]
    rw [mask_intra_eq (y % 8) h hh hintra]
    exact draw_fast_helper_on_eq s _ _ ho1
  · rw [if_neg (show ¬(0 : Int) < 8 - ((y % 8 : Nat) : Int) - (h : Int) from by omega)]
    rw [if_neg hintra]
    have hrem8 : (y + h) % 8 < 8 := by omega
    by_cases hr : y % 8 ≠ 0
    · simp only [if_pos hr]
      rw [mask_start_eq (y % 8) (by omega)]
      rw [draw_fast_helper_on_eq s _ _ ho1]
      simp only [except_ok_bind]
      by_cases hrem : (y + h) % 8 ≠ 0
      · simp only [if_pos hrem]
        rw [mask_end_eq ((y + h) % 8) (by omega) hrem8]
        have he1 : (y + h) / 8 < s.buffer_rows / 8 := by omega
        have ho2 : (y + h) / 8 + (s.buffer_rows / 8) * x < s.buffer.length := by
          rw [hlen]
          exact offset_lt _ _ _ _ hx he1
        rw [draw_fast_helper_on_eq { s with buffer := (orAt s.buffer (y / 8 + (s.buffer_rows / 8) * x) ((2 ^ (8 - y % 8) - 1) <<< (y % 8))) } _ _ (by simpa [orAt] using ho2)]
        simp only [except_ok_bind]
        rw [vlineMiddle_eq ((y + h) / 8) { s with buffer := orAt (orAt s.buffer (y / 8 + (s.buffer_rows / 8) * x) ((2 ^ (8 - y % 8) - 1) <<< (y % 8))) ((y + h) / 8 + (s.buffer_rows / 8) * x) (2 ^ ((y + h) % 8) - 1) }
          ((s.buffer_rows / 8) * x) (y / 8 + 1) ((y + h) / 8) (Nat.sub_le _ _)
          (orAt_bytes (orAt_bytes hb (mask_start_le255 (y % 8) (by omega)))
            (mask_end_le255 ((y + h) % 8) hrem8))
          (fun q h1 h2 => by
            have hq2 : q + (s.buffer_rows / 8) * x < s.buffer.length := by
              rw [hlen]
              exact offset_lt _ _ _ _ hx (by omega)
            simpa [orAt] using hq2)]
      · simp only [if_neg hrem]
        simp only [except_ok_bind]
        rw [vlineMiddle_eq ((y + h) / 8) { s with buffer := (orAt s.buffer (y / 8 + (s.buffer_rows / 8) * x) ((2 ^ (8 - y % 8) - 1) <<< (y % 8))) }
          ((s.buffer_rows / 8) * x) (y / 8 + 1) ((y + h) / 8) (Nat.sub_le _ _)
          (orAt_bytes hb (mask_start_le255 (y % 8) (by omega)))
          (fun q h1 h2 => by
            have hq2 : q + (s.buffer_rows / 8) * x < s.buffer.length := by
              rw [hlen]
              exact offset_lt _ _ _ _ hx (by omega)
            simpa [orAt] using hq2)]
    · simp only [if_neg hr]
      simp only [except_ok_bind]
      by_cases hrem : (y + h) % 8 ≠ 0
      · simp only [if_pos hrem]
        rw [mask_end_eq ((y + h) % 8) (by omega) hrem8]
        have he1 : (y + h) / 8 < s.buffer_rows / 8 := by omega
        have ho2 : (y + h) / 8 + (s.buffer_rows / 8) * x < s.buffer.length := by
          rw [hlen]
          exact offset_lt _ _ _ _ hx he1
        rw [draw_fast_helper_on_eq s _ _ ho2]
        simp only [except_ok_bind]
        rw [vlineMiddle_eq ((y + h) / 8) { s with buffer := orAt s.buffer ((y + h) / 8 + (s.buffer_rows / 8) * x) (2 ^ ((y + h) % 8) - 1) }
          ((s.buffer_rows / 8) * x) (y / 8) ((y + h) / 8) (Nat.sub_le _ _)
          (orAt_bytes hb (mask_end_le255 ((y + h) % 8) hrem8))
          (fun q h1 h2 => by
            have hq2 : q + (s.buffer_rows / 8) * x < s.buffer.length := by
              rw [hlen]
              exact offset_lt _ _ _ _ hx (by omega)
            simpa [orAt] using hq2)]
      · simp only [if_neg hrem]
        simp only [except_ok_bind]
        rw [vlineMiddle_eq ((y + h) / 8) s
          ((s.buffer_rows / 8) * x) (y / 8) ((y + h) / 8) (Nat.sub_le _ _) hb
          (fun q h1 h2 => by
            rw [hlen]
            exact offset_lt _ _ _ _ hx (by omega))]

/-- Claim C1: on a well-formed buffer, draw_fast_vline(x, y, h, 1) produces
exactly the state that h sequential draw_pixel(x, y+i, 1) calls produce,
for every in-bounds run; and on the default all-zero 64x128 buffer,
draw_fast_vline(5, 3, 4, 1) sets byte 40 (column 5, page 0) to 0b01111000
and touches nothing else. -/
theorem c1_vline_refines_draw_pixel :
    (∀ (s : St) (x y h : Nat),
      8 ∣ s.buffer_rows →
      s.buffer.length = s.buffer_cols * (s.buffer_rows / 8) →
      (∀ c ∈ s.buffer, c ≤ 255) →
      x < s.buffer_cols → 0 < h → y + h ≤ s.buffer_rows →
      draw_fast_vline s (x : Int) (y : Int) (h : Int) 1 =
        seqPixels s (x : Int) (y : Int) h) ∧
    draw_fast_vline (mkSSD1306V 64 128) 5 3 4 1 =
      .ok { mkSSD1306V 64 128 with
            buffer := (mkSSD1306V 64 128).buffer.set 40 0x78 } := by
  constructor
  · intro s x y h h8 hlen hb hx hh hyh
    rw [seqPixels_eq h s x y h8 hlen hb hx hyh]
    unfold draw_fast_vline
    rw [if_neg (by omega)]
    simp only [Int.toNat_natCast]
    rw [vline_core_eq s x y h h8 hlen hb hx hh hyh]
    rw [orRunB_eq_spec _ _ _ _ _ hh]
  · decide

theorem c1_vline_refines_draw_pixel_witness :
    draw_fast_vline (mkSSD1306V 64 2) 1 10 20 1 =
      seqPixels (mkSSD1306V 64 2) 1 10 20 := by
  have h := c1_vline_refines_draw_pixel.1 (mkSSD1306V 64 2) 1 10 20
    (by decide) (by decide) (by decide) (by decide) (by decide) (by decide)
  exact_mod_cast h

end AdaPi
